import Mathlib

/-!
Shallow embedding of the core of the `nodejs-bigtable` Table client
(file `src/backup.ts`, second unit: the legacy `table.js` source):

* `Table.createPrefixRange_` — byte-level conversion of a row-key prefix
  into a `{start, end: {value, inclusive}}` range descriptor;
* `Table.createReadStream` — assembly of the `readRows` request
  (`reqOpts`) from a caller-supplied read specification;
* `Table.mutate` — the batched-mutation retry engine with its
  `pendingEntryIndices` / `mutationErrorsByEntryIndex` /
  `numRequestsMade` bookkeeping.

Row keys and JS strings are modelled as `List Nat` of UTF-16 code units
(`String.fromCharCode` truncates modulo 2 ^ 16, made explicit below).
Mutation entries are identified by their original index in the
caller-supplied sequence: the source keys `entryToIndex` by object
identity and distinct entry literals are distinct references, so the map
is the identity on original indices.  Remote behaviour (the per-attempt
response stream) is an explicit input: for each attempt number and each
sent batch it yields the list of `{index, status.code}` data events
followed by either a clean `end` or a transport `error`.
-/

namespace NodeBigtable

/-- Set of per-entry gRPC status codes the mutation engine retries:
4 = DEADLINE_EXCEEDED, 10 = ABORTED, 14 = UNAVAILABLE
(source: `const RETRY_STATUS_CODES = new Set([4, 10, 14])`). -/
def RETRY_STATUS_CODES : List Nat := [4, 10, 14]

/-- One end of a row range as it appears in the objects this layer builds:
either absent (JS `undefined` / empty string, both falsy in every test the
source performs), a bare key (the source stores `start: start` directly), or
a `{value, inclusive}` object as produced by `Table.createPrefixRange_`. -/
inductive KeyBound where
  | unspecified : KeyBound
  | plain : List Nat → KeyBound
  | restricted : List Nat → Bool → KeyBound
deriving DecidableEq, Repr

/-- A row-range descriptor `{start, end}` as collected in `options.ranges`. -/
structure RowRange where
  start : KeyBound
  «end» : KeyBound
deriving DecidableEq, Repr

/-- Strip the trailing run of `0xff` code units from a key, modelling
`start.replace(new RegExp('[\xff]+$'), '')`. -/
def stripTrailingFF (s : List Nat) : List Nat :=
  (s.reverse.dropWhile (fun c => c == 255)).reverse

/-- Model of `Table.createPrefixRange_(start)`: strip trailing `0xff` code
units; if something remains, the exclusive upper bound is the stripped key
with its last code unit incremented (`String.fromCharCode` truncates modulo
2 ^ 16); otherwise `endKey` stays the empty string and `inclusive: !endKey`
makes the upper bound inclusive/unbounded. -/
def Table.createPrefixRange_ (start : List Nat) : RowRange :=
  let stripped := stripTrailingFF start
  let endKey : List Nat :=
    if stripped.isEmpty then []
    else stripped.dropLast ++ [(stripped.getLastD 0 + 1) % 65536]
  { start := KeyBound.plain start
    «end» := KeyBound.restricted endKey endKey.isEmpty }

/-- Caller-supplied read specification for `Table.createReadStream`.
`none` models a field the source's truthiness tests treat as absent. -/
structure ReadOptions where
  start : Option (List Nat)
  «end» : Option (List Nat)
  ranges : List RowRange
  keys : Option (List (List Nat))
  pfx : Option (List Nat)
  filter : Option Nat
  limit : Option Nat
deriving DecidableEq, Repr

/-- The `reqOpts.rows` object: row keys and row ranges, each present only
when the source assigns it. -/
structure RowsSpec where
  rowKeys : Option (List (List Nat))
  rowRanges : Option (List RowRange)
deriving DecidableEq, Repr

/-- The `readRows` request descriptor assembled by `Table.createReadStream`
(`tableName`/`objectMode` glue omitted; `filter` carried opaquely since
`Filter.parse` lives outside this unit). -/
structure ReadRowsRequest where
  rows : Option RowsSpec
  filter : Option Nat
  rowsLimit : Option Nat
deriving DecidableEq, Repr

/-- Wrap an optional caller-supplied key bound the way the pushed
`{start: options.start, end: options.end}` object carries it. -/
def boundOf : Option (List Nat) → KeyBound
  | none => KeyBound.unspecified
  | some k => KeyBound.plain k

/-- Model of the request-assembly part of `Table.prototype.createReadStream`:
push a `{start, end}` range when either bound is given, push the prefix
range when a prefix is given, then set `rows.rowKeys` / `rows.rowRanges` /
`filter` / `rowsLimit` exactly as the source's truthiness tests do. -/
def Table.createReadStreamRequest (o : ReadOptions) : ReadRowsRequest :=
  let ranges0 := o.ranges
  let ranges1 :=
    if o.start.isSome || o.«end».isSome then
      ranges0 ++ [{ start := boundOf o.start, «end» := boundOf o.«end» }]
    else ranges0
  let ranges2 :=
    match o.pfx with
    | some p => ranges1 ++ [Table.createPrefixRange_ p]
    | none => ranges1
  { rows :=
      if o.keys.isSome || !ranges2.isEmpty then
        some { rowKeys := o.keys
               rowRanges := if ranges2.isEmpty then none else some ranges2 }
      else none
    filter := o.filter
    rowsLimit := o.limit }

/-- Row-range list of an assembled request (empty when `rows` or
`rows.rowRanges` is unset). -/
def ReadRowsRequest.rangeList (req : ReadRowsRequest) : List RowRange :=
  match req.rows with
  | some rs => rs.rowRanges.getD []
  | none => []

/-! ### The mutation retry engine -/

/-- A decorated per-entry mutation error as kept in
`mutationErrorsByEntryIndex`: the status code together with `status.entry`,
the original entry (identified by its original index; `none` models the
`undefined` produced by an out-of-range batch position). -/
structure ErrRec where
  code : Nat
  entry : Option Nat
deriving DecidableEq, Repr

/-- The mutable bookkeeping owned by one `Table.mutate` invocation.
`pendingEntryIndices` models the JS `Set` of original indices (insertion
order = ascending, maintained as a list); `mutationErrorsByEntryIndex`
models the JS `Map` with its insertion-order semantics as an association
list. -/
structure MutateState where
  pendingEntryIndices : List Nat
  mutationErrorsByEntryIndex : List (Option Nat × ErrRec)
deriving DecidableEq, Repr

/-- JS `Map.prototype.set`: overwriting an existing key keeps its position,
a new key is appended at the end. -/
def mapSet (m : List (Option Nat × ErrRec)) (k : Option Nat) (v : ErrRec) :
    List (Option Nat × ErrRec) :=
  if m.any (fun p => p.1 == k) then
    m.map (fun p => if p.1 == k then (k, v) else p)
  else m ++ [(k, v)]

/-- JS `Map.prototype.get`. -/
def mapGet (m : List (Option Nat × ErrRec)) (k : Option Nat) : Option ErrRec :=
  (m.find? (fun p => p.1 == k)).map (fun p => p.2)

/-- Resolution of one per-entry result against an original index
`originalIdx` (the source's `originalEntriesIndex`): status 0 deletes the
index from `pendingEntryIndices` and its recorded error; a non-retryable
status additionally deletes the index from `pendingEntryIndices`; every
non-zero status records/overwrites the decorated error for the index. -/
def processIdx (originalIdx : Option Nat) (code : Nat) (st : MutateState) :
    MutateState :=
  if code = 0 then
    { pendingEntryIndices :=
        st.pendingEntryIndices.filter (fun i => some i ≠ originalIdx)
      mutationErrorsByEntryIndex :=
        st.mutationErrorsByEntryIndex.filter (fun p => p.1 ≠ originalIdx) }
  else
    { pendingEntryIndices :=
        if RETRY_STATUS_CODES.contains code then st.pendingEntryIndices
        else st.pendingEntryIndices.filter (fun i => some i ≠ originalIdx)
      mutationErrorsByEntryIndex :=
        mapSet st.mutationErrorsByEntryIndex originalIdx
          { code := code, entry := originalIdx } }

/-- One `data`-event entry `{index, status.code}`: look the batch-local
position up in `entryBatch` (`entryBatch[entry.index]`), recover the
original index through `entryToIndex`, and resolve. -/
def processResult (entryBatch : List Nat) (st : MutateState) (r : Nat × Nat) :
    MutateState :=
  processIdx entryBatch[r.1]? r.2 st

/-- The response stream of one batch attempt: the per-entry
`(batch-local index, status code)` data events in arrival order, then
either a clean `end` (`transportErr = none`) or an `error` event carrying a
transport-level failure. -/
structure AttemptResponse where
  results : List (Nat × Nat)
  transportErr : Option Nat
deriving DecidableEq, Repr

/-- Drain one attempt's response stream over the state. -/
def applyResponse (entryBatch : List Nat) (resp : AttemptResponse)
    (st : MutateState) : MutateState :=
  resp.results.foldl (processResult entryBatch) st

/-- The batch sent by one attempt: entries whose original index is still
pending, in original relative order
(`entries.filter((entry, index) => pendingEntryIndices.has(index))`). -/
def mkBatch (n : Nat) (pending : List Nat) : List Nat :=
  (List.range n).filter (fun i => pending.contains i)

/-- Terminal outcome of a `Table.mutate` call. -/
inductive MutateOutcome where
  | ok : MutateOutcome
  | transportFailure : Nat → MutateOutcome
  | aggregateErrors : List ErrRec → MutateOutcome
deriving DecidableEq, Repr

/-- The tail of `onBatchResponse` once the loop stops: a non-empty
`mutationErrorsByEntryIndex` replaces `err` with the aggregated
partial-failure outcome built from `Array.from(map.values())`; otherwise
the last attempt's transport error (or success) is delivered. -/
def finalOutcome (st : MutateState) (transportErr : Option Nat) :
    MutateOutcome :=
  if st.mutationErrorsByEntryIndex.isEmpty then
    match transportErr with
    | some c => MutateOutcome.transportFailure c
    | none => MutateOutcome.ok
  else
    MutateOutcome.aggregateErrors (st.mutationErrorsByEntryIndex.map (fun p => p.2))

/-- Observable result of a whole `Table.mutate` call: the single outcome
delivered to the callback, the number of batch attempts made, the trace of
sent batches (original indices), and the final bookkeeping. -/
structure RunResult where
  outcome : MutateOutcome
  attemptsMade : Nat
  batches : List (List Nat)
  finalPending : List Nat
  finalErrors : List (Option Nat × ErrRec)
deriving DecidableEq, Repr

/-- The `makeNextBatchRequest` / `onBatchResponse` loop.  Each pass sends
the batch of still-pending entries, drains the response stream
(incrementing `numRequestsMade` once per attempt, the spec's reading of the
`request` event), and either recurses — when entries remain pending and
`numRequestsMade <= maxRetries` — or delivers the terminal outcome.  `fuel`
is an upper bound on the remaining passes; every caller supplies
`maxRetries + 1`, which the guard `numReq + 1 ≤ maxRetries` never exhausts. -/
def mutateGo (n maxRetries : Nat)
    (responses : Nat → List Nat → AttemptResponse)
    (fuel : Nat) (st : MutateState) (numReq : Nat) : RunResult :=
  let entryBatch := mkBatch n st.pendingEntryIndices
  let resp := responses numReq entryBatch
  let st' := applyResponse entryBatch resp st
  let stop : RunResult :=
    { outcome := finalOutcome st' resp.transportErr
      attemptsMade := numReq + 1
      batches := [entryBatch]
      finalPending := st'.pendingEntryIndices
      finalErrors := st'.mutationErrorsByEntryIndex }
  if st'.pendingEntryIndices ≠ [] ∧ numReq + 1 ≤ maxRetries then
    match fuel with
    | 0 => stop
    | fuel' + 1 =>
      let r := mutateGo n maxRetries responses fuel' st' (numReq + 1)
      { r with batches := entryBatch :: r.batches }
  else stop

/-- Initial bookkeeping: every original index pending, no recorded errors. -/
def initState (n : Nat) : MutateState :=
  { pendingEntryIndices := List.range n
    mutationErrorsByEntryIndex := [] }

/-- Model of `Table.prototype.mutate` on `numEntries` entries:
`maxRetriesOpt = none` models `this.maxRetries` not being a number, in
which case the source falls back to 3
(`is.number(this.maxRetries) ? this.maxRetries : 3`); the loop is entered
unconditionally with all indices pending. -/
def Table.mutate (numEntries : Nat) (maxRetriesOpt : Option Nat)
    (responses : Nat → List Nat → AttemptResponse) : RunResult :=
  let maxRetries := match maxRetriesOpt with | some m => m | none => 3
  mutateGo numEntries maxRetries responses (maxRetries + 1)
    (initState numEntries) 0

/-- A response stream that resolves every entry of the received batch
exactly once, in batch order: position `b` carrying original index `i`
gets status `codeOf i`.  `b` is the running batch-local position. -/
def completeResults (codeOf : Nat → Nat) : Nat → List Nat → List (Nat × Nat)
  | _, [] => []
  | b, i :: rest => (b, codeOf i) :: completeResults codeOf (b + 1) rest

/-- Remote behaviour in which attempt `j` resolves every batch entry with
original index `i` to status `σ j i`, in batch order, and ends cleanly. -/
def completeResponses (σ : Nat → Nat → Nat) :
    Nat → List Nat → AttemptResponse :=
  fun j entryBatch => { results := completeResults (σ j) 0 entryBatch
                        transportErr := none }

/-- Retryability of a status code as a Bool, for closed-form statements. -/
def retryable (c : Nat) : Bool := RETRY_STATUS_CODES.contains c

/-- Closed form: original index `i` is still pending after `t` complete
attempts iff every one of its first `t` statuses was retryable. -/
def activeAt (σ : Nat → Nat → Nat) (t i : Nat) : Bool :=
  decide (∀ j < t, retryable (σ j i) = true)

/-- Closed form of `pendingEntryIndices` after `t` complete attempts. -/
def closedPending (σ : Nat → Nat → Nat) (n t : Nat) : List Nat :=
  (List.range n).filter (activeAt σ t)

/-- Closed form: original index `i` never resolved to status 0 in its
first `t` complete attempts (it receives a result at attempt `j` exactly
when it is still active at the start of attempt `j`). -/
def neverOkAt (σ : Nat → Nat → Nat) (t i : Nat) : Bool :=
  decide (∀ j < t, activeAt σ j i = true → σ j i ≠ 0)

/-- Closed form of the keys of `mutationErrorsByEntryIndex` after `t ≥ 1`
complete attempts, in original-index order. -/
def closedErrKeys (σ : Nat → Nat → Nat) (n t : Nat) : List Nat :=
  (List.range n).filter (fun i => neverOkAt σ t i)

/-- The state reached after `t` complete attempts driven by `σ`,
ignoring the loop's termination tests (used to describe trajectories). -/
def stateAfter (σ : Nat → Nat → Nat) (n : Nat) : Nat → MutateState
  | 0 => initState n
  | t + 1 =>
    let st := stateAfter σ n t
    let entryBatch := mkBatch n st.pendingEntryIndices
    applyResponse entryBatch (completeResponses σ t entryBatch) st

/-- The key list of `mutationErrorsByEntryIndex`, in JS-Map insertion
order. -/
def errKeys (st : MutateState) : List (Option Nat) :=
  st.mutationErrorsByEntryIndex.map (fun p => p.1)

/-- Every recorded error carries its own entry: `status.entry` always holds
the entry whose index keys the record. -/
def ErrEntriesWF (st : MutateState) : Prop :=
  ∀ p ∈ st.mutationErrorsByEntryIndex, p.2.entry = p.1

/-- Concrete status schedule (witnesses): entry 1 hard-fails with
PERMISSION_DENIED (13) at every attempt, every other entry succeeds. -/
def codesOneHardFailure : Nat → Nat → Nat := fun _ i => if i = 1 then 13 else 0

/-- Concrete status schedule (witnesses): every entry is UNAVAILABLE (14)
at the first attempt and succeeds from the second on. -/
def codesOkAtSecond : Nat → Nat → Nat := fun j _ => if j = 0 then 14 else 0

/-- Concrete response schedule (witnesses): at the first attempt entry 0
resolves ok and entry 1 is UNAVAILABLE (14); later attempts resolve their
whole batch ok. -/
def schedOkThenRetry : Nat → List Nat → AttemptResponse :=
  fun j entryBatch =>
    if j = 0 then { results := [(0, 0), (1, 14)], transportErr := none }
    else { results := completeResults (fun _ => 0) 0 entryBatch
           transportErr := none }

end NodeBigtable
namespace NodeBigtable

/-! ### Helper lemmas: the JS-Map model -/

theorem mapGet_filter_self (m : List (Option Nat × ErrRec)) (k : Option Nat) :
    mapGet (m.filter (fun p => p.1 ≠ k)) k = none := by
  unfold mapGet
  rw [Option.map_eq_none', List.find?_eq_none]
  intro x hx
  rw [List.mem_filter] at hx
  have := hx.2
  simp at this ⊢
  exact this

theorem find?_mapSet_map (m : List (Option Nat × ErrRec)) (k : Option Nat)
    (v : ErrRec) (h : m.any (fun p => p.1 == k) = true) :
    (m.map (fun p => if p.1 == k then (k, v) else p)).find?
      (fun p => p.1 == k) = some (k, v) := by
  induction m with
  | nil => simp at h
  | cons q m ih =>
    by_cases hq : q.1 = k
    · have hqb : (q.1 == k) = true := beq_iff_eq.2 hq
      rw [List.map_cons, if_pos hqb, List.find?_cons_of_pos _ (by simp)]
    · have hqb : (q.1 == k) = false := beq_eq_false_iff_ne.2 hq
      have h' : m.any (fun p => p.1 == k) = true := by
        simpa [List.any_cons, hqb] using h
      rw [List.map_cons, if_neg (by simp [hqb]), List.find?_cons_of_neg _ (by simp [hqb]),
        ih h']

theorem mapGet_mapSet_self (m : List (Option Nat × ErrRec)) (k : Option Nat)
    (v : ErrRec) : mapGet (mapSet m k v) k = some v := by
  by_cases h : m.any (fun p => p.1 == k) = true
  · unfold mapSet mapGet
    rw [if_pos h, find?_mapSet_map m k v h]
    rfl
  · have hnone : m.find? (fun p => p.1 == k) = none := by
      rw [List.find?_eq_none]
      intro x hx hcon
      exact h (List.any_eq_true.2 ⟨x, hx, hcon⟩)
    unfold mapSet mapGet
    rw [if_neg h, List.find?_append, hnone]
    simp [List.find?]

/-- Keys of the error map are untouched by an overwriting `mapSet`. -/
theorem keys_mapSet (m : List (Option Nat × ErrRec)) (k : Option Nat) (v : ErrRec) :
    (mapSet m k v).map (fun p => p.1) =
      if m.any (fun p => p.1 == k) then m.map (fun p => p.1)
      else m.map (fun p => p.1) ++ [k] := by
  unfold mapSet
  by_cases h : m.any (fun p => p.1 == k) = true
  · simp only [h, if_true, List.map_map]
    refine List.map_congr_left ?_
    intro p _
    by_cases hp : p.1 = k
    · simp [hp]
    · simp [hp]
  · simp [h]

/-! ### C1: per-entry result resolution -/

/-- C1: during a mutate call each per-entry result is resolved against the
entry's original index (recovered as `entryBatch[entry.index]`, not the
batch-local position): status 0 removes that index from
`pendingEntryIndices` and clears its recorded error; a retryable status —
exactly codes 4, 10, 14, with 0 being ok and every other code
non-retryable — leaves the index pending and records/overwrites its error;
a non-retryable status removes the index from `pendingEntryIndices` and
records its error. -/
theorem mutate_per_entry_resolution (entryBatch : List Nat) (st : MutateState)
    (b i c : Nat) (hb : entryBatch[b]? = some i) :
    (∀ code, RETRY_STATUS_CODES.contains code = true ↔
      (code = 4 ∨ code = 10 ∨ code = 14)) ∧
    (c = 0 →
      i ∉ (processResult entryBatch st (b, c)).pendingEntryIndices ∧
      mapGet (processResult entryBatch st (b, c)).mutationErrorsByEntryIndex
        (some i) = none) ∧
    (c = 4 ∨ c = 10 ∨ c = 14 →
      (i ∈ (processResult entryBatch st (b, c)).pendingEntryIndices ↔
        i ∈ st.pendingEntryIndices) ∧
      mapGet (processResult entryBatch st (b, c)).mutationErrorsByEntryIndex
        (some i) = some { code := c, entry := some i }) ∧
    (c ≠ 0 → ¬(c = 4 ∨ c = 10 ∨ c = 14) →
      i ∉ (processResult entryBatch st (b, c)).pendingEntryIndices ∧
      mapGet (processResult entryBatch st (b, c)).mutationErrorsByEntryIndex
        (some i) = some { code := c, entry := some i }) := by
  refine ⟨?_, ?_, ?_, ?_⟩
  · intro code
    simp [RETRY_STATUS_CODES]
  · intro hc
    subst hc
    constructor
    · simp [processResult, hb, processIdx, List.mem_filter]
    · simp only [processResult, hb, processIdx, if_pos rfl]
      exact mapGet_filter_self _ _
  · intro hc
    have hcont : RETRY_STATUS_CODES.contains c = true := by
      rcases hc with h | h | h <;> simp [RETRY_STATUS_CODES, h]
    have hc0 : ¬(c = 0) := by rcases hc with h | h | h <;> omega
    have hmem : c ∈ RETRY_STATUS_CODES := by
      rcases hc with h | h | h <;> simp [RETRY_STATUS_CODES, h]
    have hred : processResult entryBatch st (b, c) =
        { pendingEntryIndices := st.pendingEntryIndices
          mutationErrorsByEntryIndex :=
            mapSet st.mutationErrorsByEntryIndex (some i)
              { code := c, entry := some i } } := by
      simp [processResult, hb, processIdx, hc0, hcont, hmem]
    rw [hred]
    exact ⟨Iff.rfl, mapGet_mapSet_self _ _ _⟩
  · intro hc0 hcr
    have hcont : RETRY_STATUS_CODES.contains c = false := by
      simp only [RETRY_STATUS_CODES, List.contains_cons, List.contains_nil,
        Bool.or_false, Bool.or_eq_false_iff, beq_eq_false_iff_ne]
      omega
    have hmem : c ∉ RETRY_STATUS_CODES := by
      simp [RETRY_STATUS_CODES]
      omega
    have hred : processResult entryBatch st (b, c) =
        { pendingEntryIndices :=
            st.pendingEntryIndices.filter (fun x => some x ≠ some i)
          mutationErrorsByEntryIndex :=
            mapSet st.mutationErrorsByEntryIndex (some i)
              { code := c, entry := some i } } := by
      simp [processResult, hb, processIdx, hc0, hcont, hmem]
    rw [hred]
    refine ⟨?_, mapGet_mapSet_self _ _ _⟩
    simp [List.mem_filter]

/-- Witness for C1: in a batch `[2, 5]` the result at batch position 1 with
retryable code 4 resolves against original index 5. -/
theorem mutate_per_entry_resolution_w :
    (([2, 5] : List Nat)[1]? = some 5) ∧
    ((5 ∈ (processResult [2, 5] ⟨[2, 5], []⟩ (1, 4)).pendingEntryIndices ↔
        5 ∈ ([2, 5] : List Nat)) ∧
      mapGet (processResult [2, 5] ⟨[2, 5], []⟩ (1, 4)).mutationErrorsByEntryIndex
        (some 5) = some { code := 4, entry := some 5 }) :=
  ⟨by decide,
    (mutate_per_entry_resolution [2, 5] ⟨[2, 5], []⟩ 1 5 4 (by decide)).2.2.1
      (Or.inl rfl)⟩

end NodeBigtable
namespace NodeBigtable

/-! ### Attempt-count bound -/

/-- The loop makes at most `maxRetries + 1` attempts: each recursion step
requires `numRequestsMade <= maxRetries` after the increment. -/
theorem mutateGo_attemptsMade_le (n maxRetries : Nat)
    (responses : Nat → List Nat → AttemptResponse) :
    ∀ (fuel : Nat) (st : MutateState) (numReq : Nat), numReq ≤ maxRetries →
      (mutateGo n maxRetries responses fuel st numReq).attemptsMade ≤
        maxRetries + 1 := by
  intro fuel
  induction fuel with
  | zero =>
    intro st numReq h
    rw [mutateGo]
    split
    · simp
      omega
    · simp
      omega
  | succ fuel ih =>
    intro st numReq h
    rw [mutateGo]
    split
    · rename_i hcond
      simpa using ih _ (numReq + 1) hcond.2
    · simp
      omega

/-! ### C10: the silent default retry budget -/

/-- C10: when the table's `maxRetries` option is not a number,
`Table.mutate` silently uses the default retry budget 3
(`is.number(this.maxRetries) ? this.maxRetries : 3`): the defaulted call
expands to the loop with budget 3, every such call makes at most 4 batch
attempts, and an always-retryable schedule realises exactly 4 attempts. -/
theorem mutate_default_maxRetries :
    (∀ n responses, Table.mutate n none responses =
      mutateGo n 3 responses 4 (initState n) 0) ∧
    (∀ n responses, (Table.mutate n none responses).attemptsMade ≤ 4) ∧
    (Table.mutate 1 none
        (fun _ _ => { results := [(0, 4)], transportErr := none })).attemptsMade
      = 4 := by
  refine ⟨fun n responses => rfl, fun n responses => ?_, by decide⟩
  exact mutateGo_attemptsMade_le n 3 responses 4 (initState n) 0 (by omega)

/-! ### C6: the empty-entries call -/

/-- C6 counterexample: with an empty `entries` sequence the source still
calls `makeNextBatchRequest()` once, issuing one remote batch request whose
entry list is empty — `attemptsMade` is 1, not 0, refuting "performs no
remote batch call at all". -/
theorem mutate_empty_entries_cex :
    (Table.mutate 0 (some 3)
        (fun _ _ => { results := [], transportErr := none })).outcome =
      MutateOutcome.ok ∧
    (Table.mutate 0 (some 3)
        (fun _ _ => { results := [], transportErr := none })).batches = [[]] ∧
    ¬(Table.mutate 0 (some 3)
        (fun _ _ => { results := [], transportErr := none })).attemptsMade = 0 := by
  decide

/-- C6 corrected: an empty `entries` sequence issues exactly one remote
batch call, carrying an empty entry batch; when that call ends cleanly with
no per-entry results, the caller gets a success outcome. -/
theorem mutate_empty_entries (maxRetriesOpt : Option Nat)
    (responses : Nat → List Nat → AttemptResponse)
    (h : responses 0 [] = { results := [], transportErr := none }) :
    (Table.mutate 0 maxRetriesOpt responses).attemptsMade = 1 ∧
    (Table.mutate 0 maxRetriesOpt responses).batches = [[]] ∧
    (Table.mutate 0 maxRetriesOpt responses).outcome = MutateOutcome.ok := by
  unfold Table.mutate
  rw [mutateGo]
  simp [mkBatch, initState, h, applyResponse, finalOutcome]

/-- Witness for the corrected C6, with a concrete clean-response schedule
and `maxRetries = 5`. -/
theorem mutate_empty_entries_w :
    ((fun _ _ => { results := [], transportErr := none } :
        Nat → List Nat → AttemptResponse) 0 [] =
      { results := [], transportErr := none }) ∧
    ((Table.mutate 0 (some 5)
        (fun _ _ => { results := [], transportErr := none })).attemptsMade = 1 ∧
      (Table.mutate 0 (some 5)
        (fun _ _ => { results := [], transportErr := none })).batches = [[]] ∧
      (Table.mutate 0 (some 5)
        (fun _ _ => { results := [], transportErr := none })).outcome =
        MutateOutcome.ok) :=
  ⟨rfl, mutate_empty_entries (some 5) _ rfl⟩

/-! ### C7 / C8: the prefix-to-range conversion -/

/-- Every key splits as its 0xFF-stripped head followed by the stripped-off
run of 0xFF code units. -/
theorem stripTrailingFF_decomp (s : List Nat) :
    s = stripTrailingFF s ++
      List.replicate (s.reverse.takeWhile (fun c => c == 255)).length 255 := by
  have hsplit : s.reverse.takeWhile (fun c => c == 255) ++
      s.reverse.dropWhile (fun c => c == 255) = s.reverse :=
    List.takeWhile_append_dropWhile (fun c => c == 255) s.reverse
  have hrep : (s.reverse.takeWhile (fun c => c == 255)).reverse =
      List.replicate (s.reverse.takeWhile (fun c => c == 255)).length 255 := by
    rw [List.eq_replicate_iff]
    refine ⟨by simp, ?_⟩
    intro b hb
    rw [List.mem_reverse] at hb
    simpa using List.mem_takeWhile_imp hb
  calc s = s.reverse.reverse := (List.reverse_reverse s).symm
    _ = (s.reverse.takeWhile (fun c => c == 255) ++
          s.reverse.dropWhile (fun c => c == 255)).reverse := by rw [hsplit]
    _ = stripTrailingFF s ++ (s.reverse.takeWhile (fun c => c == 255)).reverse := by
          rw [List.reverse_append]
          rfl
    _ = _ := by rw [hrep]

/-- Stripping yields the empty key exactly when the key was empty or all
0xFF code units. -/
theorem stripTrailingFF_eq_nil_iff (s : List Nat) :
    stripTrailingFF s = [] ↔ ∀ c ∈ s, c = 255 := by
  unfold stripTrailingFF
  rw [List.reverse_eq_nil_iff, List.dropWhile_eq_nil_iff]
  constructor
  · intro h c hc
    simpa using h c (List.mem_reverse.2 hc)
  · intro h c hc
    simp [h c (List.mem_reverse.1 hc)]

/-- C7: `Table.createPrefixRange_` keeps the original (unstripped) prefix as
the bare (inclusive) lower bound; it strips all trailing 0xFF bytes — the
prefix always splits as stripped head plus a run of 0xFF, and the stripped
head is empty exactly when the prefix was empty or all 0xFF; when the
stripped head is non-empty the upper bound is the stripped head with its
last code unit incremented, exclusive; otherwise the upper bound is the
empty key with `inclusive` true (unbounded end of keyspace). -/
theorem createPrefixRange_spec (s : List Nat) :
    (Table.createPrefixRange_ s).start = KeyBound.plain s ∧
    (∃ k, s = stripTrailingFF s ++ List.replicate k 255) ∧
    (stripTrailingFF s = [] ↔ ∀ c ∈ s, c = 255) ∧
    (stripTrailingFF s ≠ [] →
      (Table.createPrefixRange_ s).«end» =
        KeyBound.restricted
          ((stripTrailingFF s).dropLast ++
            [((stripTrailingFF s).getLastD 0 + 1) % 65536]) false) ∧
    (stripTrailingFF s = [] →
      (Table.createPrefixRange_ s).«end» = KeyBound.restricted [] true) := by
  refine ⟨rfl, ⟨_, stripTrailingFF_decomp s⟩, stripTrailingFF_eq_nil_iff s, ?_, ?_⟩
  · intro h
    have hne : (stripTrailingFF s).isEmpty = false := by
      simpa [List.isEmpty_iff] using h
    simp [Table.createPrefixRange_, hne]
  · intro h
    simp [Table.createPrefixRange_, h]

/-- Witness for C7 at the prefix "a" + 0xFF: the stripped head "a" is
non-empty and the end bound is the exclusive key "b". -/
theorem createPrefixRange_spec_w :
    stripTrailingFF [97, 255] ≠ [] ∧
    (Table.createPrefixRange_ [97, 255]).«end» =
      KeyBound.restricted
        ((stripTrailingFF [97, 255]).dropLast ++
          [((stripTrailingFF [97, 255]).getLastD 0 + 1) % 65536]) false :=
  ⟨by decide, (createPrefixRange_spec [97, 255]).2.2.2.1 (by decide)⟩

/-- C8 counterexample: `prefixToRange("a" + 0xFF)` does NOT have an
unbounded upper bound: stripping the trailing 0xFF leaves "a", which is
non-empty, so the upper bound is the bounded exclusive key "b". -/
theorem prefixRange_laws_cex :
    Table.createPrefixRange_ [97, 255] =
      { start := KeyBound.plain [97, 255]
        «end» := KeyBound.restricted [98] false } ∧
    ¬(Table.createPrefixRange_ [97, 255]).«end» = KeyBound.restricted [] true := by
  decide

/-- C8 corrected: `prefixToRange("a")` yields start "a" and exclusive end
"b"; `prefixToRange("a" + 0xFF)` yields start "a" + 0xFF and BOUNDED
exclusive end "b" (the trailing 0xFF is stripped, leaving the non-empty
"a"); `prefixToRange("")` yields the full-table unbounded range; the
unbounded end arises exactly for empty or all-0xFF prefixes, e.g.
`prefixToRange(0xFF 0xFF)`. -/
theorem prefixRange_laws :
    Table.createPrefixRange_ [97] =
      { start := KeyBound.plain [97]
        «end» := KeyBound.restricted [98] false } ∧
    Table.createPrefixRange_ [97, 255] =
      { start := KeyBound.plain [97, 255]
        «end» := KeyBound.restricted [98] false } ∧
    Table.createPrefixRange_ [] =
      { start := KeyBound.plain []
        «end» := KeyBound.restricted [] true } ∧
    Table.createPrefixRange_ [255, 255] =
      { start := KeyBound.plain [255, 255]
        «end» := KeyBound.restricted [] true } := by
  decide

end NodeBigtable
namespace NodeBigtable

/-! ### C9: faithful read-request assembly -/

/-- C9: the built `readRows` request translates the read spec faithfully,
without deduplicating or coalescing: its row-range list is exactly the
caller-supplied ranges, followed by one range formed from `start`/`end`
when either is given, followed by one range derived from the prefix when
given; explicit keys, filter and row limit are carried over as supplied;
and a spec with no keys, no ranges, no prefix and no `start`/`end` is legal
and yields a request with no row restriction (full table scan). -/
theorem createReadStream_faithful (o : ReadOptions) :
    (Table.createReadStreamRequest o).rangeList =
      o.ranges ++
        (if o.start.isSome || o.«end».isSome then
          [{ start := boundOf o.start, «end» := boundOf o.«end» }]
        else []) ++
        (o.pfx.map Table.createPrefixRange_).toList ∧
    (Table.createReadStreamRequest o).filter = o.filter ∧
    (Table.createReadStreamRequest o).rowsLimit = o.limit ∧
    (o.keys.isSome →
      ∃ rs, (Table.createReadStreamRequest o).rows = some rs ∧
        rs.rowKeys = o.keys) ∧
    (o.keys = none → o.ranges = [] → o.start = none → o.«end» = none →
      o.pfx = none →
      Table.createReadStreamRequest o =
        { rows := none, filter := o.filter, rowsLimit := o.limit }) := by
  refine ⟨?_, rfl, rfl, ?_, ?_⟩
  · unfold Table.createReadStreamRequest ReadRowsRequest.rangeList
    rcases o.pfx with _ | p <;>
      rcases hse : o.start.isSome || o.«end».isSome with _ | _ <;>
        by_cases hk : o.keys.isSome <;>
          by_cases hr : o.ranges = [] <;>
            simp [hse, hk, hr, List.isEmpty_iff]
  · intro hk
    unfold Table.createReadStreamRequest
    simp [hk]
  · intro hk hr hs he hp
    unfold Table.createReadStreamRequest
    simp [hk, hr, hs, he, hp]

/-- Witness for C9: a spec with duplicate ranges, both bounds, a prefix and
keys keeps the two identical ranges and appends the start/end range and the
prefix range in order. -/
theorem createReadStream_faithful_w :
    (Table.createReadStreamRequest
        { start := some [97], «end» := none
          ranges := [{ start := KeyBound.plain [107], «end» := KeyBound.plain [109] },
                     { start := KeyBound.plain [107], «end» := KeyBound.plain [109] }]
          keys := some [[122]], pfx := some [97], filter := some 7
          limit := some 9 }).rangeList =
      [{ start := KeyBound.plain [107], «end» := KeyBound.plain [109] },
       { start := KeyBound.plain [107], «end» := KeyBound.plain [109] },
       { start := KeyBound.plain [97], «end» := KeyBound.unspecified },
       { start := KeyBound.plain [97], «end» := KeyBound.restricted [98] false }] ∧
    (∃ rs,
      (Table.createReadStreamRequest
        { start := some [97], «end» := none
          ranges := [{ start := KeyBound.plain [107], «end» := KeyBound.plain [109] },
                     { start := KeyBound.plain [107], «end» := KeyBound.plain [109] }]
          keys := some [[122]], pfx := some [97], filter := some 7
          limit := some 9 }).rows = some rs ∧ rs.rowKeys = some [[122]]) :=
  ⟨((createReadStream_faithful _).1).trans (by decide),
    (createReadStream_faithful _).2.2.2.1 (by decide)⟩

end NodeBigtable
namespace NodeBigtable

/-! ### Monotonicity of the pending set -/

theorem processIdx_pending_sublist (oi : Option Nat) (c : Nat) (st : MutateState) :
    List.Sublist (processIdx oi c st).pendingEntryIndices st.pendingEntryIndices := by
  by_cases h0 : c = 0
  · simp only [processIdx, if_pos h0]
    exact List.filter_sublist _
  · by_cases hr : RETRY_STATUS_CODES.contains c = true
    · have hrm : c ∈ RETRY_STATUS_CODES := by simpa [List.elem_eq_mem] using hr
      simp [processIdx, h0, hr, hrm]
    · simp only [processIdx, if_neg h0, hr, Bool.false_eq_true, if_false]
      exact List.filter_sublist _

theorem foldl_processResult_pending_sublist (B : List Nat) :
    ∀ (rs : List (Nat × Nat)) (st : MutateState),
      List.Sublist (rs.foldl (processResult B) st).pendingEntryIndices
        st.pendingEntryIndices := by
  intro rs
  induction rs with
  | nil => intro st; exact List.Sublist.refl _
  | cons r rs ih =>
    intro st
    exact (ih (processResult B st r)).trans (processIdx_pending_sublist _ _ _)

theorem applyResponse_pending_sublist (B : List Nat) (resp : AttemptResponse)
    (st : MutateState) :
    List.Sublist (applyResponse B resp st).pendingEntryIndices
      st.pendingEntryIndices :=
  foldl_processResult_pending_sublist B resp.results st

theorem mkBatch_mono (n : Nat) (p q : List Nat) (h : List.Sublist p q) :
    List.Sublist (mkBatch n p) (mkBatch n q) := by
  apply List.monotone_filter_right
  intro a ha
  simp only [List.elem_eq_mem, decide_eq_true_eq] at ha ⊢
  exact h.subset ha

theorem mem_mkBatch (n : Nat) (p : List Nat) (i : Nat) :
    i ∈ mkBatch n p ↔ i < n ∧ i ∈ p := by
  simp [mkBatch, List.mem_filter, List.mem_range]

theorem processIdx_pending_removed (oi : Option Nat) (c : Nat) (st : MutateState)
    (i : Nat) (hin : i ∈ st.pendingEntryIndices)
    (hout : i ∉ (processIdx oi c st).pendingEntryIndices) :
    oi = some i ∧ (c = 0 ∨ retryable c = false) := by
  by_cases h0 : c = 0
  · simp only [processIdx, if_pos h0] at hout
    have hpred : ¬(some i ≠ oi) := by
      intro hne
      exact hout (List.mem_filter.2 ⟨hin, by simpa using hne⟩)
    exact ⟨(not_not.1 hpred).symm, Or.inl h0⟩
  · by_cases hr : RETRY_STATUS_CODES.contains c = true
    · exfalso
      apply hout
      have hrm : c ∈ RETRY_STATUS_CODES := by simpa [List.elem_eq_mem] using hr
      simpa [processIdx, h0, hr, hrm] using hin
    · simp only [processIdx, if_neg h0, hr, Bool.false_eq_true, if_false] at hout
      have hpred : ¬(some i ≠ oi) := by
        intro hne
        exact hout (List.mem_filter.2 ⟨hin, by simpa using hne⟩)
      refine ⟨(not_not.1 hpred).symm, Or.inr ?_⟩
      simpa [retryable] using hr

theorem head?_mem_getD (l : List (List Nat)) (y : List Nat) (hy : y ∈ l.head?) :
    y = l.getD 0 [] := by
  cases l with
  | nil => simp at hy
  | cons b l =>
    simp only [List.head?_cons, Option.mem_some_iff] at hy
    simp [hy]

theorem pending_removed_explicit (B : List Nat) :
    ∀ (rs : List (Nat × Nat)) (st : MutateState) (i : Nat),
      i ∈ st.pendingEntryIndices →
      i ∉ (rs.foldl (processResult B) st).pendingEntryIndices →
      ∃ rr ∈ rs, B[rr.1]? = some i ∧ (rr.2 = 0 ∨ retryable rr.2 = false) := by
  intro rs
  induction rs with
  | nil => intro st i hin hout; exact absurd hin hout
  | cons r rs ih =>
    intro st i hin hout
    by_cases hmid : i ∈ (processResult B st r).pendingEntryIndices
    · obtain ⟨rr, hrr, h1, h2⟩ := ih _ i hmid hout
      exact ⟨rr, List.mem_cons_of_mem _ hrr, h1, h2⟩
    · obtain ⟨ho, hc⟩ := processIdx_pending_removed B[r.1]? r.2 st i hin hmid
      exact ⟨r, List.mem_cons_self _ _, ho, hc⟩

/-- Trace of batches of one loop run: the first batch is the pending filter
of the initial state, consecutive batches shrink as sublists, and an index
dropped between consecutive batches was resolved by an explicit ok or
non-retryable per-entry result of the earlier attempt. -/
theorem mutateGo_batches (n maxRetries : Nat)
    (responses : Nat → List Nat → AttemptResponse) :
    ∀ (fuel : Nat) (st : MutateState) (numReq : Nat) (bs : List (List Nat)),
      bs = (mutateGo n maxRetries responses fuel st numReq).batches →
      bs.getD 0 [] = mkBatch n st.pendingEntryIndices ∧ bs ≠ [] ∧
      List.Chain' (fun B B' => List.Sublist B' B) bs ∧
      (∀ j i, j + 1 < bs.length → i ∈ bs.getD j [] → i ∉ bs.getD (j + 1) [] →
        ∃ rr ∈ (responses (numReq + j) (bs.getD j [])).results,
          (bs.getD j [])[rr.1]? = some i ∧
            (rr.2 = 0 ∨ retryable rr.2 = false)) := by
  intro fuel
  induction fuel with
  | zero =>
    intro st numReq bs hbs
    have hb : bs = [mkBatch n st.pendingEntryIndices] := by
      rw [mutateGo] at hbs
      split at hbs <;> exact hbs
    subst hb
    refine ⟨rfl, by simp, List.chain'_singleton _, ?_⟩
    intro j i hj
    simp at hj
  | succ fuel ih =>
    intro st numReq bs hbs
    rw [mutateGo] at hbs
    dsimp only at hbs
    by_cases hcond :
        (applyResponse (mkBatch n st.pendingEntryIndices)
            (responses numReq (mkBatch n st.pendingEntryIndices))
            st).pendingEntryIndices ≠ [] ∧ numReq + 1 ≤ maxRetries
    · rw [if_pos hcond] at hbs
      obtain ⟨ihh, ihne, ihchain, ihexp⟩ :=
        ih (applyResponse (mkBatch n st.pendingEntryIndices)
              (responses numReq (mkBatch n st.pendingEntryIndices)) st)
          (numReq + 1) _ rfl
      subst hbs
      have hstep : List.Sublist
          (mkBatch n (applyResponse (mkBatch n st.pendingEntryIndices)
            (responses numReq (mkBatch n st.pendingEntryIndices))
            st).pendingEntryIndices)
          (mkBatch n st.pendingEntryIndices) :=
        mkBatch_mono n _ _ (applyResponse_pending_sublist _ _ _)
      refine ⟨rfl, by simp, ?_, ?_⟩
      · rw [List.chain'_cons']
        refine ⟨?_, ihchain⟩
        intro y hy
        rw [head?_mem_getD _ _ hy, ihh]
        exact hstep
      · intro j i hj hmem hnmem
        match j with
        | 0 =>
          simp only [List.getD_cons_zero] at hmem
          simp only [List.getD_cons_succ, ihh] at hnmem
          have hin : i ∈ st.pendingEntryIndices := ((mem_mkBatch _ _ _).1 hmem).2
          have hn : i < n := ((mem_mkBatch _ _ _).1 hmem).1
          have hout : i ∉ (applyResponse (mkBatch n st.pendingEntryIndices)
              (responses numReq (mkBatch n st.pendingEntryIndices))
              st).pendingEntryIndices := by
            intro hcontra
            exact hnmem ((mem_mkBatch _ _ _).2 ⟨hn, hcontra⟩)
          obtain ⟨rr, hrr, h1, h2⟩ :=
            pending_removed_explicit (mkBatch n st.pendingEntryIndices)
              (responses numReq (mkBatch n st.pendingEntryIndices)).results
              st i hin hout
          refine ⟨rr, ?_, ?_, h2⟩
          · simpa using hrr
          · simpa using h1
        | j' + 1 =>
          have hj' : j' + 1 < (mutateGo n maxRetries responses fuel
              (applyResponse (mkBatch n st.pendingEntryIndices)
                (responses numReq (mkBatch n st.pendingEntryIndices)) st)
              (numReq + 1)).batches.length := by
            simpa using hj
          obtain ⟨rr, hrr, h1, h2⟩ :=
            ihexp j' i hj' (by simpa using hmem) (by simpa using hnmem)
          refine ⟨rr, ?_, by simpa using h1, h2⟩
          have harith : numReq + 1 + j' = numReq + (j' + 1) := by omega
          rw [harith] at hrr
          simpa using hrr
    · rw [if_neg hcond] at hbs
      subst hbs
      refine ⟨rfl, by simp, List.chain'_singleton _, ?_⟩
      intro j i hj
      simp at hj

theorem chain'_sublist_getD (bs : List (List Nat))
    (h : List.Chain' (fun B B' => List.Sublist B' B) bs) :
    ∀ j k, j ≤ k → k < bs.length →
      List.Sublist (bs.getD k []) (bs.getD j []) := by
  intro j k hjk
  induction k with
  | zero =>
    intro hk
    have hj0 : j = 0 := by omega
    subst hj0
    exact List.Sublist.refl _
  | succ k ihk =>
    intro hk
    by_cases hje : j = k + 1
    · subst hje
      exact List.Sublist.refl _
    · have hjk' : j ≤ k := by omega
      have hk' : k < bs.length := by omega
      have step : List.Sublist (bs.getD (k + 1) []) (bs.getD k []) := by
        have hc := List.chain'_iff_get.1 h k (by omega)
        have e1 : bs.getD k [] = bs.get ⟨k, hk'⟩ := by
          rw [List.getD_eq_get?, List.get?_eq_get hk']
          rfl
        have e2 : bs.getD (k + 1) [] = bs.get ⟨k + 1, hk⟩ := by
          rw [List.getD_eq_get?, List.get?_eq_get hk]
          rfl
        rw [e1, e2]
        exact hc
      exact step.trans (ihk hjk' hk')

/-! ### C2: pending-set monotonicity across attempts -/

/-- C2: within one mutate call, the pending set is non-increasing across
attempts — every later batch is a sublist of every earlier batch (so no
index is ever re-added, and once an index has left `pendingEntryIndices` no
later attempt's batch contains it, regardless of what statuses arrive for
other entries) — and an index present in one batch but not the next was
removed by an explicit per-entry result for that index carrying status ok
(0) or a non-retryable status. -/
theorem mutate_pending_monotone (numEntries : Nat) (maxRetriesOpt : Option Nat)
    (responses : Nat → List Nat → AttemptResponse) :
    (∀ j k, j ≤ k →
      k < (Table.mutate numEntries maxRetriesOpt responses).batches.length →
      List.Sublist
        ((Table.mutate numEntries maxRetriesOpt responses).batches.getD k [])
        ((Table.mutate numEntries maxRetriesOpt responses).batches.getD j [])) ∧
    (∀ j i,
      j + 1 < (Table.mutate numEntries maxRetriesOpt responses).batches.length →
      i ∈ (Table.mutate numEntries maxRetriesOpt responses).batches.getD j [] →
      i ∉ (Table.mutate numEntries maxRetriesOpt responses).batches.getD (j + 1) [] →
      ∃ rr ∈ (responses j
          ((Table.mutate numEntries maxRetriesOpt responses).batches.getD j [])).results,
        ((Table.mutate numEntries maxRetriesOpt responses).batches.getD j [])[rr.1]? =
          some i ∧ (rr.2 = 0 ∨ retryable rr.2 = false)) := by
  obtain ⟨hh, hne, hchain, hexp⟩ :=
    mutateGo_batches numEntries
      (match maxRetriesOpt with | some m => m | none => 3) responses
      ((match maxRetriesOpt with | some m => m | none => 3) + 1)
      (initState numEntries) 0 _ rfl
  refine ⟨chain'_sublist_getD _ hchain, ?_⟩
  intro j i hj hmem hnmem
  have := hexp j i hj hmem hnmem
  simpa using this

/-- Witness for C2: two entries, entry 0 ok and entry 1 unavailable at the
first attempt; the second batch `[1]` is a sublist of the first `[0, 1]`,
and index 0 left the batch via its explicit ok result. -/
theorem mutate_pending_monotone_w :
    (List.Sublist
      ((Table.mutate 2 (some 3) schedOkThenRetry).batches.getD 1 [])
      ((Table.mutate 2 (some 3) schedOkThenRetry).batches.getD 0 [])) ∧
    (∃ rr ∈ (schedOkThenRetry 0
        ((Table.mutate 2 (some 3) schedOkThenRetry).batches.getD 0 [])).results,
      ((Table.mutate 2 (some 3) schedOkThenRetry).batches.getD 0 [])[rr.1]? =
        some 0 ∧ (rr.2 = 0 ∨ retryable rr.2 = false)) :=
  ⟨(mutate_pending_monotone 2 (some 3) schedOkThenRetry).1 0 1 (by omega) (by decide),
    (mutate_pending_monotone 2 (some 3) schedOkThenRetry).2 0 0 (by decide)
      (by decide) (by decide)⟩

end NodeBigtable
namespace NodeBigtable

/-! ### Complete responses: per-index decomposition -/

theorem processIdx_pending_of_retryable (oi : Option Nat) (c : Nat)
    (st : MutateState) (h0 : c ≠ 0) (hr : retryable c = true) :
    (processIdx oi c st).pendingEntryIndices = st.pendingEntryIndices := by
  unfold retryable at hr
  have hrm : c ∈ RETRY_STATUS_CODES := by simpa [List.elem_eq_mem] using hr
  simp [processIdx, h0, hrm]

theorem processIdx_pending_of_not_retryable (oi : Option Nat) (c : Nat)
    (st : MutateState) (hr : retryable c = false) :
    (processIdx oi c st).pendingEntryIndices =
      st.pendingEntryIndices.filter (fun x => some x ≠ oi) := by
  by_cases h0 : c = 0
  · simp [processIdx, h0]
  · unfold retryable at hr
    have hrm : c ∉ RETRY_STATUS_CODES := by
      simpa [List.elem_eq_mem] using hr
    simp [processIdx, h0, hrm]

theorem processIdx_errors_of_zero (oi : Option Nat) (st : MutateState) :
    (processIdx oi 0 st).mutationErrorsByEntryIndex =
      st.mutationErrorsByEntryIndex.filter (fun p => p.1 ≠ oi) := by
  simp [processIdx]

theorem processIdx_errors_of_nonzero (oi : Option Nat) (c : Nat)
    (st : MutateState) (h0 : c ≠ 0) :
    (processIdx oi c st).mutationErrorsByEntryIndex =
      mapSet st.mutationErrorsByEntryIndex oi { code := c, entry := oi } := by
  rcases Bool.eq_false_or_eq_true (RETRY_STATUS_CODES.contains c) with hr | hr <;>
    simp [processIdx, h0, hr]

theorem foldl_completeResults (codeOf : Nat → Nat) (B0 : List Nat) :
    ∀ (B : List Nat) (b : Nat) (st : MutateState), B0.drop b = B →
      (completeResults codeOf b B).foldl (processResult B0) st =
        B.foldl (fun s i => processIdx (some i) (codeOf i) s) st := by
  intro B
  induction B with
  | nil => intro b st hdrop; rfl
  | cons i rest ih =>
    intro b st hdrop
    have hget : B0[b]? = some i := by
      have h0 : (B0.drop b)[0]? = some i := by rw [hdrop]; simp
      rw [List.getElem?_drop] at h0
      simpa using h0
    have hdrop' : B0.drop (b + 1) = rest := by
      have h1 : List.drop 1 (B0.drop b) = rest := by rw [hdrop]; rfl
      rw [List.drop_drop] at h1
      simpa using h1
    simp only [completeResults, List.foldl_cons]
    have hpr : processResult B0 st (b, codeOf i) =
        processIdx (some i) (codeOf i) st := by
      simp [processResult, hget]
    rw [hpr]
    exact ih (b + 1) _ hdrop'

/-! ### Closed form of the pending set under a complete attempt -/

theorem foldIdx_pending (codeOf : Nat → Nat) :
    ∀ (B : List Nat) (st : MutateState),
      (B.foldl (fun s i => processIdx (some i) (codeOf i) s)
          st).pendingEntryIndices =
        st.pendingEntryIndices.filter
          (fun x => !B.contains x || retryable (codeOf x)) := by
  intro B
  induction B with
  | nil =>
    intro st
    simp
  | cons i B' ih =>
    intro st
    rw [List.foldl_cons, ih]
    rcases Bool.eq_false_or_eq_true (retryable (codeOf i)) with hr | hr
    · have hne : codeOf i ≠ 0 := by
        intro h0
        rw [h0] at hr
        exact absurd hr (by decide)
      rw [processIdx_pending_of_retryable _ _ _ hne hr]
      apply List.filter_congr
      intro x _
      by_cases hxi : x = i
      · subst hxi
        simp [hr]
      · simp [hxi]
    · rw [processIdx_pending_of_not_retryable _ _ _ hr, List.filter_filter]
      apply List.filter_congr
      intro x _
      by_cases hxi : x = i
      · subst hxi
        simp [hr]
      · simp [hxi]

/-! ### Closed form of the error-map keys under a complete attempt -/

theorem errKeys_filter_key (m : List (Option Nat × ErrRec)) (k0 : Option Nat) :
    (m.filter (fun p => p.1 ≠ k0)).map (fun p => p.1) =
      (m.map (fun p => p.1)).filter (fun k => k ≠ k0) := by
  induction m with
  | nil => rfl
  | cons p m ih =>
    have ih' := ih
    simp only [ne_eq, decide_not] at ih'
    by_cases hp : p.1 = k0
    · simp [hp, ih']
    · simp [hp, ih']

theorem any_key_eq_mem (m : List (Option Nat × ErrRec)) (k : Option Nat) :
    m.any (fun p => p.1 == k) = decide (k ∈ m.map (fun p => p.1)) := by
  induction m with
  | nil => simp
  | cons p m ih =>
    by_cases hpk : p.1 = k
    · simp [List.any_cons, hpk]
    · simp only [List.any_cons, ih, List.map_cons, List.mem_cons]
      by_cases h : k = p.1
      · exact absurd h.symm hpk
      · simp [hpk, h]

theorem foldIdx_errKeys (codeOf : Nat → Nat) :
    ∀ (B : List Nat) (st : MutateState), B.Nodup →
      errKeys (B.foldl (fun s i => processIdx (some i) (codeOf i) s) st) =
        (errKeys st).filter
            (fun k => decide (∀ i ∈ B, k = some i → ¬codeOf i = 0)) ++
          (B.filter (fun i =>
              decide (¬codeOf i = 0 ∧ some i ∉ errKeys st))).map some := by
  intro B
  induction B with
  | nil =>
    intro st _
    simp
  | cons i B' ih =>
    intro st hnd
    have hiB' : i ∉ B' := (List.nodup_cons.1 hnd).1
    have hnd' : B'.Nodup := (List.nodup_cons.1 hnd).2
    rw [List.foldl_cons, ih _ hnd']
    by_cases h0 : codeOf i = 0
    · -- status ok: the key for i is deleted, i contributes nothing
      have hkeys : errKeys (processIdx (some i) (codeOf i) st) =
          (errKeys st).filter (fun k => k ≠ some i) := by
        unfold errKeys
        rw [h0, processIdx_errors_of_zero]
        exact errKeys_filter_key _ _
      rw [hkeys, List.filter_filter]
      refine congrArg₂ (· ++ ·) ?_ (congrArg (List.map some) ?_)
      · apply List.filter_congr
        intro k _
        by_cases hki : k = some i
        · subst hki
          simp [h0, List.forall_mem_cons]
        · simp [hki, List.forall_mem_cons]
      · rw [show ((i :: B').filter (fun x =>
            decide (¬codeOf x = 0 ∧ some x ∉ errKeys st))) =
            B'.filter (fun x => decide (¬codeOf x = 0 ∧ some x ∉ errKeys st))
          from by simp [List.filter_cons, h0]]
        apply List.filter_congr
        intro x hx
        have hxi : x ≠ i := fun h => hiB' (h ▸ hx)
        simp [List.mem_filter, hxi]
    · -- non-zero status: the key for i is set/overwritten
      have herr : errKeys (processIdx (some i) (codeOf i) st) =
          if decide (some i ∈ errKeys st) = true then errKeys st
          else errKeys st ++ [some i] := by
        unfold errKeys
        rw [processIdx_errors_of_nonzero _ _ _ h0, keys_mapSet,
          any_key_eq_mem]
      by_cases hmem : some i ∈ errKeys st
      · rw [herr, if_pos (by simpa using hmem)]
        refine congrArg₂ (· ++ ·) ?_ (congrArg (List.map some) ?_)
        · apply List.filter_congr
          intro k _
          by_cases hki : k = some i
          · subst hki
            simp [h0, List.forall_mem_cons]
          · simp [hki, List.forall_mem_cons]
        · rw [show ((i :: B').filter (fun x =>
              decide (¬codeOf x = 0 ∧ some x ∉ errKeys st))) =
              B'.filter (fun x => decide (¬codeOf x = 0 ∧ some x ∉ errKeys st))
            from by simp [List.filter_cons, hmem]]
      · rw [herr, if_neg (by simpa using hmem), List.filter_append]
        have hPB'i : (([some i] : List (Option Nat)).filter
            (fun k => decide (∀ x ∈ B', k = some x → ¬codeOf x = 0))) =
            [some i] := by
          simp only [List.filter_cons, List.filter_nil]
          rw [if_pos]
          rw [decide_eq_true_eq]
          intro x hx heq
          injection heq with h
          subst h
          exact absurd hx hiB'
        rw [hPB'i]
        have hkept : (errKeys st).filter
            (fun k => decide (∀ x ∈ B', k = some x → ¬codeOf x = 0)) =
            (errKeys st).filter
              (fun k => decide (∀ x ∈ i :: B', k = some x → ¬codeOf x = 0)) := by
          apply List.filter_congr
          intro k _
          by_cases hki : k = some i
          · subst hki
            simp [h0, List.forall_mem_cons]
          · simp [hki, List.forall_mem_cons]
        have happ : B'.filter (fun x =>
            decide (¬codeOf x = 0 ∧ some x ∉ errKeys st ++ [some i])) =
            B'.filter (fun x =>
              decide (¬codeOf x = 0 ∧ some x ∉ errKeys st)) := by
          apply List.filter_congr
          intro x hx
          have hxi : x ≠ i := fun h => hiB' (h ▸ hx)
          simp [List.mem_append, hxi]
        have hhead : ((i :: B').filter (fun x =>
            decide (¬codeOf x = 0 ∧ some x ∉ errKeys st))) =
            i :: B'.filter (fun x =>
              decide (¬codeOf x = 0 ∧ some x ∉ errKeys st)) := by
          simp [List.filter_cons, h0, hmem]
        rw [hkept, happ, hhead]
        simp

end NodeBigtable
namespace NodeBigtable

/-! ### Closed-form trajectory of the bookkeeping -/

theorem retryable_ne_zero (c : Nat) (h : retryable c = true) : c ≠ 0 := by
  intro h0
  rw [h0] at h
  exact absurd h (by decide)

theorem activeAt_zero (σ : Nat → Nat → Nat) (i : Nat) : activeAt σ 0 i = true := by
  simp [activeAt]

theorem activeAt_succ (σ : Nat → Nat → Nat) (t i : Nat) :
    activeAt σ (t + 1) i = (activeAt σ t i && retryable (σ t i)) := by
  simp [activeAt, Nat.forall_lt_succ]

theorem neverOkAt_one (σ : Nat → Nat → Nat) (i : Nat) :
    neverOkAt σ 1 i = decide (¬σ 0 i = 0) := by
  simp [neverOkAt, Nat.forall_lt_succ, activeAt_zero]

theorem neverOkAt_succ (σ : Nat → Nat → Nat) (t i : Nat) :
    neverOkAt σ (t + 1) i =
      (neverOkAt σ t i && decide (activeAt σ t i = true → ¬σ t i = 0)) := by
  simp [neverOkAt, Nat.forall_lt_succ]

theorem activeAt_imp_neverOk (σ : Nat → Nat → Nat) (t i : Nat)
    (h : activeAt σ t i = true) : neverOkAt σ t i = true := by
  rw [activeAt, decide_eq_true_eq] at h
  rw [neverOkAt, decide_eq_true_eq]
  intro j hj _ h0
  have hr := h j hj
  rw [h0] at hr
  exact absurd hr (by decide)

theorem closedPending_zero (σ : Nat → Nat → Nat) (n : Nat) :
    closedPending σ n 0 = List.range n := by
  unfold closedPending
  have h : ∀ x ∈ List.range n, activeAt σ 0 x = true := fun x _ => activeAt_zero σ x
  rw [List.filter_congr h, List.filter_true]

theorem mkBatch_filter (n : Nat) (p : Nat → Bool) :
    mkBatch n ((List.range n).filter p) = (List.range n).filter p := by
  unfold mkBatch
  apply List.filter_congr
  intro x hx
  simp [List.elem_eq_mem, List.mem_filter, hx]

theorem mkBatch_range (n : Nat) : mkBatch n (List.range n) = List.range n := by
  unfold mkBatch
  have h : ∀ x ∈ List.range n, (List.range n).contains x = true := by
    intro x hx
    simp [List.elem_eq_mem, hx]
  rw [List.filter_congr h, List.filter_true]

theorem filter_map_some (l : List Nat) (q : Option Nat → Bool) :
    (l.map some).filter q = (l.filter (fun i => q (some i))).map some := by
  induction l with
  | nil => rfl
  | cons a l ih =>
    by_cases hq : q (some a) = true
    · simp [List.filter_cons, hq, ih]
    · simp [List.filter_cons, hq, ih]

theorem stateAfter_pending (σ : Nat → Nat → Nat) (n : Nat) :
    ∀ t, (stateAfter σ n t).pendingEntryIndices = closedPending σ n t := by
  intro t
  induction t with
  | zero =>
    rw [closedPending_zero]
    rfl
  | succ t ih =>
    show (applyResponse (mkBatch n (stateAfter σ n t).pendingEntryIndices)
        (completeResponses σ t (mkBatch n (stateAfter σ n t).pendingEntryIndices))
        (stateAfter σ n t)).pendingEntryIndices = _
    unfold applyResponse
    rw [show (completeResponses σ t
          (mkBatch n (stateAfter σ n t).pendingEntryIndices)).results =
        completeResults (σ t) 0
          (mkBatch n (stateAfter σ n t).pendingEntryIndices) from rfl]
    rw [foldl_completeResults (σ t) _ _ 0 _ (List.drop_zero _), foldIdx_pending, ih]
    rw [show mkBatch n (closedPending σ n t) = closedPending σ n t from
      mkBatch_filter n (activeAt σ t)]
    have hcong : ∀ x ∈ closedPending σ n t,
        (!(closedPending σ n t).contains x || retryable (σ t x)) =
          retryable (σ t x) := by
      intro x hx
      simp [List.elem_eq_mem, hx]
    rw [List.filter_congr hcong]
    unfold closedPending
    rw [List.filter_filter]
    apply List.filter_congr
    intro x _
    rw [activeAt_succ]
    exact Bool.and_comm _ _

theorem nodup_closedPending (σ : Nat → Nat → Nat) (n t : Nat) :
    (closedPending σ n t).Nodup :=
  (List.nodup_range n).filter _

theorem mem_closedPending (σ : Nat → Nat → Nat) (n t i : Nat) :
    i ∈ closedPending σ n t ↔ i < n ∧ activeAt σ t i = true := by
  simp [closedPending, List.mem_filter, List.mem_range]

theorem mem_closedErrKeys (σ : Nat → Nat → Nat) (n t i : Nat) :
    i ∈ closedErrKeys σ n t ↔ i < n ∧ neverOkAt σ t i = true := by
  simp [closedErrKeys, List.mem_filter, List.mem_range]

theorem stateAfter_errKeys (σ : Nat → Nat → Nat) (n : Nat) :
    ∀ t, errKeys (stateAfter σ n (t + 1)) = (closedErrKeys σ n (t + 1)).map some := by
  intro t
  induction t with
  | zero =>
    show errKeys (applyResponse (mkBatch n (initState n).pendingEntryIndices)
        (completeResponses σ 0 (mkBatch n (initState n).pendingEntryIndices))
        (initState n)) = _
    unfold applyResponse
    rw [show (completeResponses σ 0
          (mkBatch n (initState n).pendingEntryIndices)).results =
        completeResults (σ 0) 0
          (mkBatch n (initState n).pendingEntryIndices) from rfl]
    rw [foldl_completeResults (σ 0) _ _ 0 _ (List.drop_zero _)]
    rw [show mkBatch n (initState n).pendingEntryIndices = List.range n from
      mkBatch_range n]
    rw [foldIdx_errKeys (σ 0) _ _ (List.nodup_range n)]
    rw [show errKeys (initState n) = [] from rfl]
    rw [show (([] : List (Option Nat)).filter
        (fun k => decide (∀ i ∈ List.range n, k = some i → ¬σ 0 i = 0))) = []
      from rfl]
    rw [List.nil_append]
    apply congrArg (List.map some)
    apply List.filter_congr
    intro x _
    rw [neverOkAt_one]
    simp
  | succ t ih =>
    show errKeys (applyResponse
        (mkBatch n (stateAfter σ n (t + 1)).pendingEntryIndices)
        (completeResponses σ (t + 1)
          (mkBatch n (stateAfter σ n (t + 1)).pendingEntryIndices))
        (stateAfter σ n (t + 1))) = _
    unfold applyResponse
    rw [show (completeResponses σ (t + 1)
          (mkBatch n (stateAfter σ n (t + 1)).pendingEntryIndices)).results =
        completeResults (σ (t + 1)) 0
          (mkBatch n (stateAfter σ n (t + 1)).pendingEntryIndices) from rfl]
    rw [foldl_completeResults (σ (t + 1)) _ _ 0 _ (List.drop_zero _)]
    rw [stateAfter_pending σ n (t + 1)]
    rw [show mkBatch n (closedPending σ n (t + 1)) = closedPending σ n (t + 1) from
      mkBatch_filter n (activeAt σ (t + 1))]
    rw [foldIdx_errKeys (σ (t + 1)) _ _ (nodup_closedPending σ n (t + 1))]
    rw [ih]
    -- the appended part is empty: every pending index already has an error
    have happ : (closedPending σ n (t + 1)).filter (fun i =>
        decide (¬σ (t + 1) i = 0 ∧
          some i ∉ (closedErrKeys σ n (t + 1)).map some)) = [] := by
      rw [List.filter_eq_nil_iff]
      intro i hi
      have hmem : some i ∈ (closedErrKeys σ n (t + 1)).map some := by
        apply List.mem_map_of_mem
        rcases (mem_closedPending σ n (t + 1) i).1 hi with ⟨hin, hact⟩
        exact (mem_closedErrKeys σ n (t + 1) i).2 ⟨hin, activeAt_imp_neverOk σ _ _ hact⟩
      simp [hmem]
    rw [happ, List.map_nil, List.append_nil]
    rw [filter_map_some]
    apply congrArg (List.map some)
    unfold closedErrKeys
    rw [List.filter_filter]
    apply List.filter_congr
    intro i hi
    rw [neverOkAt_succ σ (t + 1) i]
    have hiff : (∀ x ∈ closedPending σ n (t + 1),
        (some i : Option Nat) = some x → ¬σ (t + 1) x = 0) ↔
        (activeAt σ (t + 1) i = true → ¬σ (t + 1) i = 0) := by
      constructor
      · intro h ha
        exact h i ((mem_closedPending σ n (t + 1) i).2
          ⟨List.mem_range.1 hi, ha⟩) rfl
      · intro h x hx heq
        injection heq with he
        subst he
        exact h ((mem_closedPending σ n (t + 1) i).1 hx).2
      -- wait: after subst, x is replaced by i?  handled below if mismatch
    rw [decide_eq_decide.2 hiff]
    exact Bool.and_comm _ _

/-! ### Error records always carry their own entry -/

theorem processIdx_wf (oi : Option Nat) (c : Nat) (st : MutateState)
    (h : ErrEntriesWF st) : ErrEntriesWF (processIdx oi c st) := by
  by_cases h0 : c = 0
  · subst h0
    intro p hp
    rw [processIdx_errors_of_zero] at hp
    exact h p (List.mem_filter.1 hp).1
  · intro p hp
    rw [processIdx_errors_of_nonzero _ _ _ h0] at hp
    unfold mapSet at hp
    split at hp
    · rcases List.mem_map.1 hp with ⟨q, hq, hm⟩
      by_cases hqk : (q.1 == oi) = true
      · rw [if_pos hqk] at hm
        rw [← hm]
      · rw [if_neg hqk] at hm
        rw [← hm]
        exact h q hq
    · rcases List.mem_append.1 hp with hl | hr
      · exact h p hl
      · have hp' : p = (oi, { code := c, entry := oi }) := by
          simpa using hr
        rw [hp']
  
theorem foldl_processResult_wf (B : List Nat) :
    ∀ (rs : List (Nat × Nat)) (st : MutateState), ErrEntriesWF st →
      ErrEntriesWF (rs.foldl (processResult B) st) := by
  intro rs
  induction rs with
  | nil => intro st h; exact h
  | cons r rs ih =>
    intro st h
    exact ih _ (processIdx_wf _ _ _ h)

theorem stateAfter_wf (σ : Nat → Nat → Nat) (n : Nat) :
    ∀ t, ErrEntriesWF (stateAfter σ n t) := by
  intro t
  induction t with
  | zero =>
    intro p hp
    simp [stateAfter, initState] at hp
  | succ t ih =>
    exact foldl_processResult_wf _ _ _ ih

end NodeBigtable
namespace NodeBigtable

/-! ### The loop trajectory under complete responses -/

/-- Running the loop from the `t`-attempt state with complete responses
stops after some attempt `T > t`; the final bookkeeping is the closed-form
state after `T` attempts, the outcome is its final outcome, every
intermediate attempt still had pending entries, and the stop was caused by
an empty pending set or an exhausted retry budget. -/
theorem mutateGo_complete (σ : Nat → Nat → Nat) (n maxRetries : Nat) :
    ∀ (fuel t : Nat), maxRetries ≤ t + fuel →
      ∃ T, t < T ∧
        (mutateGo n maxRetries (completeResponses σ) fuel
          (stateAfter σ n t) t).attemptsMade = T ∧
        (mutateGo n maxRetries (completeResponses σ) fuel
          (stateAfter σ n t) t).finalPending =
          (stateAfter σ n T).pendingEntryIndices ∧
        (mutateGo n maxRetries (completeResponses σ) fuel
          (stateAfter σ n t) t).finalErrors =
          (stateAfter σ n T).mutationErrorsByEntryIndex ∧
        (mutateGo n maxRetries (completeResponses σ) fuel
          (stateAfter σ n t) t).outcome =
          finalOutcome (stateAfter σ n T) none ∧
        (∀ u, t < u → u < T → (stateAfter σ n u).pendingEntryIndices ≠ []) ∧
        ((stateAfter σ n T).pendingEntryIndices = [] ∨ maxRetries + 1 ≤ T) := by
  intro fuel
  induction fuel with
  | zero =>
    intro t ht
    have hgo : mutateGo n maxRetries (completeResponses σ) 0
        (stateAfter σ n t) t =
        { outcome := finalOutcome (stateAfter σ n (t + 1)) none
          attemptsMade := t + 1
          batches := [mkBatch n (stateAfter σ n t).pendingEntryIndices]
          finalPending := (stateAfter σ n (t + 1)).pendingEntryIndices
          finalErrors := (stateAfter σ n (t + 1)).mutationErrorsByEntryIndex } := by
      rw [mutateGo]
      split <;> rfl
    refine ⟨t + 1, by omega, ?_, ?_, ?_, ?_, ?_, Or.inr (by omega)⟩
    · rw [hgo]
    · rw [hgo]
    · rw [hgo]
    · rw [hgo]
    · intro u h1 h2
      omega
  | succ fuel ihf =>
    intro t ht
    by_cases hcond : (applyResponse
        (mkBatch n (stateAfter σ n t).pendingEntryIndices)
        (completeResponses σ t (mkBatch n (stateAfter σ n t).pendingEntryIndices))
        (stateAfter σ n t)).pendingEntryIndices ≠ [] ∧ t + 1 ≤ maxRetries
    · have hgo : mutateGo n maxRetries (completeResponses σ) (fuel + 1)
          (stateAfter σ n t) t =
          { mutateGo n maxRetries (completeResponses σ) fuel
              (stateAfter σ n (t + 1)) (t + 1) with
            batches := mkBatch n (stateAfter σ n t).pendingEntryIndices ::
              (mutateGo n maxRetries (completeResponses σ) fuel
                (stateAfter σ n (t + 1)) (t + 1)).batches } := by
        rw [mutateGo]
        dsimp only
        rw [if_pos hcond]
        rfl
      obtain ⟨T, hT, hA, hP, hE, hO, htr, hd⟩ := ihf (t + 1) (by omega)
      refine ⟨T, by omega, ?_, ?_, ?_, ?_, ?_, hd⟩
      · rw [hgo]
        exact hA
      · rw [hgo]
        exact hP
      · rw [hgo]
        exact hE
      · rw [hgo]
        exact hO
      · intro u h1 h2
        by_cases hu : u = t + 1
        · subst hu
          exact hcond.1
        · exact htr u (by omega) h2
    · have hgo : mutateGo n maxRetries (completeResponses σ) (fuel + 1)
          (stateAfter σ n t) t =
          { outcome := finalOutcome (stateAfter σ n (t + 1)) none
            attemptsMade := t + 1
            batches := [mkBatch n (stateAfter σ n t).pendingEntryIndices]
            finalPending := (stateAfter σ n (t + 1)).pendingEntryIndices
            finalErrors := (stateAfter σ n (t + 1)).mutationErrorsByEntryIndex } := by
        rw [mutateGo]
        dsimp only
        rw [if_neg hcond]
        rfl
      refine ⟨t + 1, by omega, ?_, ?_, ?_, ?_, ?_, ?_⟩
      · rw [hgo]
      · rw [hgo]
      · rw [hgo]
      · rw [hgo]
      · intro u h1 h2
        omega
      · rcases not_and_or.1 hcond with h | h
        · exact Or.inl (not_not.1 h)
        · exact Or.inr (by omega)

end NodeBigtable
namespace NodeBigtable

/-! ### C3: the terminal report -/

/-- C3 counterexample: a single-attempt response stream listing per-entry
results out of index order — `(2, 13)` then `(0, 13)` — and omitting the
pending entry 1 produces an aggregated report whose records are NOT in
original-index order (keys `[some 2, some 0]`) and which carries NO record
for entry 1 even though entry 1 never reached ok (it is still pending at
termination). -/
theorem mutate_terminal_report_cex :
    (Table.mutate 3 (some 0)
        (fun _ _ => { results := [(2, 13), (0, 13)], transportErr := none })).outcome =
      MutateOutcome.aggregateErrors
        [{ code := 13, entry := some 2 }, { code := 13, entry := some 0 }] ∧
    (Table.mutate 3 (some 0)
        (fun _ _ => { results := [(2, 13), (0, 13)], transportErr := none })).finalErrors.map
        (fun p => p.1) = [some 2, some 0] ∧
    (Table.mutate 3 (some 0)
        (fun _ _ => { results := [(2, 13), (0, 13)], transportErr := none })).finalPending =
      [1] ∧
    ¬(some 1 ∈ (Table.mutate 3 (some 0)
        (fun _ _ => { results := [(2, 13), (0, 13)], transportErr := none })).finalErrors.map
        (fun p => p.1)) := by
  decide

/-- C3 (amended): when every attempt's response resolves each batch entry
exactly once, in batch order, with a clean end, the mutate call delivers
exactly one terminal outcome: the recorded error keys are exactly the
entries that never resolved ok within the attempts made, in strictly
increasing original-index order, each record carrying its own entry; if no
such entry exists the outcome is plain success, otherwise it is the single
aggregated partial failure built from those records. -/
theorem mutate_terminal_report_aux (numEntries emr : Nat) (σ : Nat → Nat → Nat) :
    1 ≤ (mutateGo numEntries emr (completeResponses σ) (emr + 1)
      (initState numEntries) 0).attemptsMade ∧
    (mutateGo numEntries emr (completeResponses σ) (emr + 1)
        (initState numEntries) 0).finalErrors.map (fun p => p.1) =
      (closedErrKeys σ numEntries
        (mutateGo numEntries emr (completeResponses σ) (emr + 1)
          (initState numEntries) 0).attemptsMade).map some ∧
    (closedErrKeys σ numEntries
      (mutateGo numEntries emr (completeResponses σ) (emr + 1)
        (initState numEntries) 0).attemptsMade).Pairwise (· < ·) ∧
    (∀ p ∈ (mutateGo numEntries emr (completeResponses σ) (emr + 1)
        (initState numEntries) 0).finalErrors, p.2.entry = p.1) ∧
    ((mutateGo numEntries emr (completeResponses σ) (emr + 1)
        (initState numEntries) 0).finalErrors = [] →
      (mutateGo numEntries emr (completeResponses σ) (emr + 1)
        (initState numEntries) 0).outcome = MutateOutcome.ok) ∧
    ((mutateGo numEntries emr (completeResponses σ) (emr + 1)
        (initState numEntries) 0).finalErrors ≠ [] →
      (mutateGo numEntries emr (completeResponses σ) (emr + 1)
        (initState numEntries) 0).outcome =
        MutateOutcome.aggregateErrors
          ((mutateGo numEntries emr (completeResponses σ) (emr + 1)
            (initState numEntries) 0).finalErrors.map (fun p => p.2))) := by
  obtain ⟨T, hT, hA, hP, hE, hO, htr, hd⟩ :=
    mutateGo_complete σ numEntries emr (emr + 1) 0 (by omega)
  have hmu : (initState numEntries) = stateAfter σ numEntries 0 := rfl
  rw [hmu, hA, hE, hO]
  obtain ⟨T', rfl⟩ : ∃ T', T = T' + 1 := ⟨T - 1, by omega⟩
  have hkeys : (stateAfter σ numEntries (T' + 1)).mutationErrorsByEntryIndex.map
      (fun p => p.1) = (closedErrKeys σ numEntries (T' + 1)).map some :=
    stateAfter_errKeys σ numEntries T'
  refine ⟨by omega, hkeys, ?_, ?_, ?_, ?_⟩
  · exact List.Pairwise.sublist (List.filter_sublist _)
      (List.pairwise_lt_range numEntries)
  · intro p hp
    exact stateAfter_wf σ numEntries (T' + 1) p hp
  · intro h
    simp [finalOutcome, h]
  · intro h
    simp [finalOutcome, List.isEmpty_iff, h]

/-- C3 (amended): when every attempt's response resolves each batch entry
exactly once, in batch order, with a clean end, the mutate call delivers
exactly one terminal outcome: the recorded error keys are exactly the
entries that never resolved ok within the attempts made, in strictly
increasing original-index order, each record carrying its own entry; if no
such entry exists the outcome is plain success, otherwise it is the single
aggregated partial failure built from those records. -/
theorem mutate_terminal_report (numEntries : Nat) (maxRetriesOpt : Option Nat)
    (σ : Nat → Nat → Nat) :
    1 ≤ (Table.mutate numEntries maxRetriesOpt (completeResponses σ)).attemptsMade ∧
    (Table.mutate numEntries maxRetriesOpt (completeResponses σ)).finalErrors.map
        (fun p => p.1) =
      (closedErrKeys σ numEntries
        (Table.mutate numEntries maxRetriesOpt
          (completeResponses σ)).attemptsMade).map some ∧
    (closedErrKeys σ numEntries
      (Table.mutate numEntries maxRetriesOpt
        (completeResponses σ)).attemptsMade).Pairwise (· < ·) ∧
    (∀ p ∈ (Table.mutate numEntries maxRetriesOpt (completeResponses σ)).finalErrors,
      p.2.entry = p.1) ∧
    ((Table.mutate numEntries maxRetriesOpt (completeResponses σ)).finalErrors = [] →
      (Table.mutate numEntries maxRetriesOpt (completeResponses σ)).outcome =
        MutateOutcome.ok) ∧
    ((Table.mutate numEntries maxRetriesOpt (completeResponses σ)).finalErrors ≠ [] →
      (Table.mutate numEntries maxRetriesOpt (completeResponses σ)).outcome =
        MutateOutcome.aggregateErrors
          ((Table.mutate numEntries maxRetriesOpt (completeResponses σ)).finalErrors.map
            (fun p => p.2))) := by
  cases maxRetriesOpt with
  | none => exact mutate_terminal_report_aux numEntries 3 σ
  | some m => exact mutate_terminal_report_aux numEntries m σ

/-- Witness for the amended C3: two entries with entry 1 hard-failing at
the single attempt; the aggregated partial failure is delivered. -/
theorem mutate_terminal_report_w :
    (Table.mutate 2 (some 1) (completeResponses codesOneHardFailure)).finalErrors ≠ [] ∧
    (Table.mutate 2 (some 1) (completeResponses codesOneHardFailure)).outcome =
      MutateOutcome.aggregateErrors
        ((Table.mutate 2 (some 1)
          (completeResponses codesOneHardFailure)).finalErrors.map (fun p => p.2)) :=
  ⟨by decide,
    (mutate_terminal_report 2 (some 1) codesOneHardFailure).2.2.2.2.2 (by decide)⟩

/-! ### C4: maxRetries = 0 means one attempt -/

/-- C4: a mutate call with `maxRetries = 0` makes exactly one remote batch
call whatever the responses are; when that single attempt resolves every
entry, the failure report covers exactly the entries whose single-attempt
status was not ok — success when there are none, the aggregated partial
failure otherwise. -/
theorem mutate_no_retries (numEntries : Nat) (σ : Nat → Nat → Nat) :
    (∀ responses, (Table.mutate numEntries (some 0) responses).attemptsMade = 1) ∧
    (Table.mutate numEntries (some 0) (completeResponses σ)).finalErrors.map
        (fun p => p.1) =
      ((List.range numEntries).filter (fun i => decide (¬σ 0 i = 0))).map some ∧
    (∀ p ∈ (Table.mutate numEntries (some 0) (completeResponses σ)).finalErrors,
      p.2.entry = p.1) ∧
    ((Table.mutate numEntries (some 0) (completeResponses σ)).finalErrors = [] →
      (Table.mutate numEntries (some 0) (completeResponses σ)).outcome =
        MutateOutcome.ok) ∧
    ((Table.mutate numEntries (some 0) (completeResponses σ)).finalErrors ≠ [] →
      (Table.mutate numEntries (some 0) (completeResponses σ)).outcome =
        MutateOutcome.aggregateErrors
          ((Table.mutate numEntries (some 0) (completeResponses σ)).finalErrors.map
            (fun p => p.2))) := by
  have hatt : ∀ responses : Nat → List Nat → AttemptResponse,
      (Table.mutate numEntries (some 0) responses).attemptsMade = 1 := by
    intro responses
    show (mutateGo numEntries 0 responses 1 (initState numEntries) 0).attemptsMade = 1
    rw [mutateGo]
    dsimp only
    split
    · rename_i h
      exact absurd h.2 (by omega)
    · rfl
  obtain ⟨T, hT, hA, hP, hE, hO, htr, hd⟩ :=
    mutateGo_complete σ numEntries 0 1 0 (by omega)
  have hmu : Table.mutate numEntries (some 0) (completeResponses σ) =
      mutateGo numEntries 0 (completeResponses σ) 1 (stateAfter σ numEntries 0) 0 :=
    rfl
  have hT1 : T = 1 := by
    have := hatt (completeResponses σ)
    rw [hmu, hA] at this
    omega
  subst hT1
  rw [hmu, hE, hO]
  have hkeys : (stateAfter σ numEntries 1).mutationErrorsByEntryIndex.map
      (fun p => p.1) = (closedErrKeys σ numEntries 1).map some :=
    stateAfter_errKeys σ numEntries 0
  have hck : closedErrKeys σ numEntries 1 =
      (List.range numEntries).filter (fun i => decide (¬σ 0 i = 0)) := by
    unfold closedErrKeys
    apply List.filter_congr
    intro i _
    exact neverOkAt_one σ i
  refine ⟨hatt, ?_, ?_, ?_, ?_⟩
  · rw [hkeys, hck]
  · intro p hp
    exact stateAfter_wf σ numEntries 1 p hp
  · intro h
    simp [finalOutcome, h]
  · intro h
    simp [finalOutcome, List.isEmpty_iff, h]

/-- Witness for C4: two entries, entry 1 hard-failing — one attempt, and
the failure list covers exactly the non-ok entry. -/
theorem mutate_no_retries_w :
    (Table.mutate 2 (some 0) (completeResponses codesOneHardFailure)).finalErrors ≠ [] ∧
    (Table.mutate 2 (some 0) (completeResponses codesOneHardFailure)).outcome =
      MutateOutcome.aggregateErrors
        ((Table.mutate 2 (some 0)
          (completeResponses codesOneHardFailure)).finalErrors.map (fun p => p.2)) :=
  ⟨by decide,
    (mutate_no_retries 2 codesOneHardFailure).2.2.2.2 (by decide)⟩

/-! ### C5: success within the retry budget -/

/-- C5: when every entry resolves ok within `k ≤ maxRetries` complete
attempts (retryable statuses before its ok), and some entry is still
retrying just before attempt `k`, the mutate call resolves as a plain
success with no partial-failure report and makes exactly `k` attempts — no
further batch request is issued once the pending set is empty. -/
theorem mutate_all_ok_within_k (numEntries k maxRetries : Nat)
    (σ : Nat → Nat → Nat) (hn : 0 < numEntries) (hkm : k ≤ maxRetries)
    (h1 : ∀ i < numEntries, ∃ j < k, σ j i = 0 ∧
      ∀ j' < j, retryable (σ j' i) = true)
    (h2 : ∃ i < numEntries, ∀ j < k - 1, retryable (σ j i) = true) :
    (Table.mutate numEntries (some maxRetries)
      (completeResponses σ)).attemptsMade = k ∧
    (Table.mutate numEntries (some maxRetries) (completeResponses σ)).outcome =
      MutateOutcome.ok ∧
    (Table.mutate numEntries (some maxRetries)
      (completeResponses σ)).finalPending = [] ∧
    (Table.mutate numEntries (some maxRetries)
      (completeResponses σ)).finalErrors = [] := by
  have hk : 0 < k := by
    obtain ⟨j, hj, _⟩ := h1 0 hn
    omega
  have hptne : ∀ u, u < k → (stateAfter σ numEntries u).pendingEntryIndices ≠ [] := by
    intro u hu
    rw [stateAfter_pending]
    obtain ⟨i, hin, hact⟩ := h2
    apply List.ne_nil_of_mem
    refine (mem_closedPending σ numEntries u i).2 ⟨hin, ?_⟩
    rw [activeAt, decide_eq_true_eq]
    intro j hj
    exact hact j (by omega)
  have hpk : (stateAfter σ numEntries k).pendingEntryIndices = [] := by
    rw [stateAfter_pending]
    unfold closedPending
    rw [List.filter_eq_nil_iff]
    intro i hi hact
    rw [activeAt, decide_eq_true_eq] at hact
    obtain ⟨j, hj, hok, _⟩ := h1 i (List.mem_range.1 hi)
    have hr := hact j hj
    rw [hok] at hr
    exact absurd hr (by decide)
  have hek : closedErrKeys σ numEntries k = [] := by
    unfold closedErrKeys
    rw [List.filter_eq_nil_iff]
    intro i hi hno
    rw [neverOkAt, decide_eq_true_eq] at hno
    obtain ⟨j, hj, hok, hpre⟩ := h1 i (List.mem_range.1 hi)
    have hactj : activeAt σ j i = true := by
      rw [activeAt, decide_eq_true_eq]
      exact fun j' hj' => hpre j' hj'
    exact (hno j hj hactj) hok
  obtain ⟨T, hT, hA, hP, hE, hO, htr, hd⟩ :=
    mutateGo_complete σ numEntries maxRetries (maxRetries + 1) 0 (by omega)
  have hmu : Table.mutate numEntries (some maxRetries) (completeResponses σ) =
      mutateGo numEntries maxRetries (completeResponses σ) (maxRetries + 1)
        (stateAfter σ numEntries 0) 0 := rfl
  have hTk : T = k := by
    rcases lt_trichotomy T k with hlt | heq | hgt
    · rcases hd with hdl | hdr
      · exact absurd hdl (hptne T hlt)
      · omega
    · exact heq
    · exact absurd hpk (htr k hk hgt)
  subst hTk
  obtain ⟨k', rfl⟩ : ∃ k', T = k' + 1 := ⟨T - 1, by omega⟩
  have herrs : (stateAfter σ numEntries (k' + 1)).mutationErrorsByEntryIndex = [] := by
    have hkeys := stateAfter_errKeys σ numEntries k'
    rw [hek] at hkeys
    have hnil : errKeys (stateAfter σ numEntries (k' + 1)) = [] := by
      simpa using hkeys
    exact List.map_eq_nil.1 hnil
  rw [hmu, hA, hP, hE, hO]
  refine ⟨rfl, ?_, hpk, herrs⟩
  simp [finalOutcome, herrs]

/-- Witness for C5: one entry, unavailable at the first attempt and ok at
the second, with `maxRetries = 3`: exactly two attempts and plain success. -/
theorem mutate_all_ok_within_k_w :
    ((0 : Nat) < 1 ∧ (2 : Nat) ≤ 3) ∧
    (Table.mutate 1 (some 3) (completeResponses codesOkAtSecond)).attemptsMade = 2 ∧
    (Table.mutate 1 (some 3) (completeResponses codesOkAtSecond)).outcome =
      MutateOutcome.ok :=
  ⟨⟨by decide, by decide⟩,
    (mutate_all_ok_within_k 1 2 3 codesOkAtSecond (by decide) (by decide)
      (by decide) (by decide)).1,
    (mutate_all_ok_within_k 1 2 3 codesOkAtSecond (by decide) (by decide)
      (by decide) (by decide)).2.1⟩

end NodeBigtable
